import Mathlib

/-!
Verification of the `fs-helper` recursive directory walker.

The embedding models:
  * the file-system tree (`FsNode`), including directories whose listing fails;
  * the mpsc channel (`Chan`) as the list of delivered items plus a consumer
    budget (`alive`) that makes sends fail once the consumer is gone;
  * the single-worker producer `ReadDir::visit` (`visit`/`visitSubs`);
  * the fan-out producer `ReadDir::visit_multithreaded` (`visitMTL` for the
    collective bag of sends, `taskEvents` for one task's send/spawn order);
  * the front-end iterator (`ReadDir`, `ReadDir.next`) and its constructor
    (`try_new`);
  * the error model of `result.rs` (`Error`, `Error.fromIo`, `Error.fromSend`).
-/

namespace FsHelper

/-- An absolute path, modelled as its list of components. -/
abbrev AbsPath := List String

/-- Payload of a platform I/O failure (std `io::Error`). -/
structure IoError where
  code : Nat
deriving DecidableEq

/-- Payload of a failed channel send: `mpsc::SendError<PathBuf>` returns the
item that could not be delivered. -/
structure SendError where
  item : AbsPath
deriving DecidableEq

/-- `result.rs`: the discriminant of the unified error type. -/
inductive ErrorKind where
  | file
  | channel
deriving DecidableEq

/-- The dynamic cause stored inside `Error` (`Box<dyn std::error::Error>`):
either the original I/O error or the original send error. -/
inductive ErrorCause where
  | io (e : IoError)
  | send (e : SendError)
deriving DecidableEq

/-- `result.rs`: `Error { kind, cause }`. -/
structure Error where
  kind : ErrorKind
  cause : ErrorCause
deriving DecidableEq

/-- `impl From<io::Error> for Error`. -/
def Error.fromIo (e : IoError) : Error :=
  { kind := ErrorKind.file, cause := ErrorCause.io e }

/-- `impl From<mpsc::SendError<T>> for Error`. -/
def Error.fromSend (e : SendError) : Error :=
  { kind := ErrorKind.channel, cause := ErrorCause.send e }

/-- A node of the file-system tree: a plain file, a directory together with its
entries in platform listing order, or a directory whose `fs::read_dir` fails
with the given I/O error. -/
inductive FsNode where
  | file (name : String)
  | dir (name : String) (entries : List FsNode)
  | dirFail (name : String) (err : IoError)

/-- The name of a directory entry. -/
def nodeName : FsNode → String
  | .file n => n
  | .dir n _ => n
  | .dirFail n _ => n

/-- The platform error raised when `fs::read_dir` is applied to a non-directory
(ENOTDIR). -/
def notADirError : IoError := { code := 20 }

/-- The mpsc channel, linearized: `sent` is the sequence of items accepted so
far (delivered to the consumer in this order); `alive = none` means the
consumer endpoint is never dropped, `alive = some k` means exactly `k` further
sends are accepted before the consumer is gone and sends start failing. -/
structure Chan where
  sent : List AbsPath
  alive : Option Nat
deriving DecidableEq

/-- `tx.send(path)`: appends the item on success; once the consumer is gone the
item is rejected (and handed back inside `mpsc::SendError`). -/
def Chan.send (c : Chan) (x : AbsPath) : Chan × Bool :=
  match c.alive with
  | none => ({ sent := c.sent ++ [x], alive := none }, true)
  | some 0 => (c, false)
  | some (k + 1) => ({ sent := c.sent ++ [x], alive := some k }, true)

/-- The first loop of `ReadDir::visit`: walk the listing in order, sending the
path of every file (`tx.send(path)?`, aborting with a `ChannelError` on a
failed send) and skipping directories (they are pushed onto `sub_dirs`). -/
def sendFiles (p : AbsPath) (c : Chan) (es : List FsNode) : Chan × Option Error :=
  match es with
  | [] => (c, none)
  | .file n :: rest =>
    match Chan.send c (p ++ [n]) with
    | (c1, true) => sendFiles p c1 rest
    | (c1, false) => (c1, some (Error.fromSend { item := p ++ [n] }))
  | .dir _ _ :: rest => sendFiles p c rest
  | .dirFail _ _ :: rest => sendFiles p c rest

mutual

/-- `ReadDir::visit(dir, tx)`: list the directory (`fs::read_dir(dir)?`,
aborting with a `FileError` when the listing fails), send every file of the
listing, then recurse into the collected subdirectories in listing order.
The argument `d` is the node the path `p` resolves to; dispatching on it
models the outcome of `fs::read_dir`. Returns the final channel state and the
error, if any, with which the producer aborted. -/
def visit (p : AbsPath) (d : FsNode) (c : Chan) : Chan × Option Error :=
  match d with
  | .file _ => (c, some (Error.fromIo notADirError))
  | .dirFail _ e => (c, some (Error.fromIo e))
  | .dir _ es =>
    match sendFiles p c es with
    | (c1, some er) => (c1, some er)
    | (c1, none) => visitSubs p es c1
termination_by (sizeOf d, 1)

/-- The second loop of `ReadDir::visit`: recurse into every subdirectory of
the listing, in listing order, propagating the first error. -/
def visitSubs (p : AbsPath) (es : List FsNode) (c : Chan) : Chan × Option Error :=
  match es with
  | [] => (c, none)
  | .file _ :: rest => visitSubs p rest c
  | .dir n es0 :: rest =>
    match visit (p ++ [n]) (.dir n es0) c with
    | (c1, none) => visitSubs p rest c1
    | (c1, some er) => (c1, some er)
  | .dirFail n er0 :: rest =>
    match visit (p ++ [n]) (.dirFail n er0) c with
    | (c1, none) => visitSubs p rest c1
    | (c1, some er) => (c1, some er)
termination_by (sizeOf es, 0)

end

/-- The paths of the files of one listing, in listing order (what the first
loop of `visit` sends when every send succeeds). -/
def filesOf (p : AbsPath) : List FsNode → List AbsPath
  | [] => []
  | .file n :: rest => (p ++ [n]) :: filesOf p rest
  | .dir _ _ :: rest => filesOf p rest
  | .dirFail _ _ :: rest => filesOf p rest

mutual

/-- The sequence of paths a failure-free run of `visit` on a directory with
listing `es` at path `p` delivers (files first, then subdirectories in listing
order). -/
def visitPL (p : AbsPath) (es : List FsNode) : List AbsPath :=
  filesOf p es ++ visitSubsP p es
termination_by (sizeOf es, 1)

/-- The sequence of paths the subdirectory loop of a failure-free run of
`visit` delivers. -/
def visitSubsP (p : AbsPath) (es : List FsNode) : List AbsPath :=
  match es with
  | [] => []
  | .file _ :: rest => visitSubsP p rest
  | .dir n es0 :: rest => visitPL (p ++ [n]) es0 ++ visitSubsP p rest
  | .dirFail _ _ :: rest => visitSubsP p rest
termination_by (sizeOf es, 0)

end

/-- `ReadDir::visit_multithreaded`: the collective bag of paths sent to the
channel by a task rooted at a directory with listing `es` at path `p`,
together with every task it transitively spawns. A spawned task whose
directory listing fails aborts having sent nothing. -/
def visitMTL (p : AbsPath) : List FsNode → Multiset AbsPath
  | [] => 0
  | .file n :: rest => (p ++ [n]) ::ₘ visitMTL p rest
  | .dir n es0 :: rest => visitMTL (p ++ [n]) es0 + visitMTL p rest
  | .dirFail _ _ :: rest => visitMTL p rest

/-- An observable action of one fan-out producer task: sending a file path or
spawning a child task for a subdirectory. -/
inductive MTEvent where
  | send (x : AbsPath)
  | spawn (dir : AbsPath)
deriving DecidableEq

/-- The ordered actions of one `visit_multithreaded` task on its own listing:
the single loop sends each file and spawns a child per subdirectory, in
listing order (a directory with a failing listing is still a directory, so a
child is spawned for it). -/
def taskEvents (p : AbsPath) : List FsNode → List MTEvent
  | [] => []
  | .file n :: rest => .send (p ++ [n]) :: taskEvents p rest
  | .dir n _ :: rest => .spawn (p ++ [n]) :: taskEvents p rest
  | .dirFail n _ :: rest => .spawn (p ++ [n]) :: taskEvents p rest

/-- The single action of a `visit_multithreaded` task for one listing entry:
a send for a file, a spawn for a (possibly failing) directory. -/
def eventOf (p : AbsPath) : FsNode → MTEvent
  | .file n => .send (p ++ [n])
  | .dir n _ => .spawn (p ++ [n])
  | .dirFail n _ => .spawn (p ++ [n])

/-- The shape claimed for a task's actions by the specification of fan-out
mode: all of its sends happen before its first spawn. -/
def sendsBeforeSpawnsB : List MTEvent → Bool
  | [] => true
  | .send _ :: rest => sendsBeforeSpawnsB rest
  | .spawn _ :: rest =>
    rest.all (fun e => match e with | .send _ => false | .spawn _ => true) &&
      sendsBeforeSpawnsB rest

/-- The front-end iterator `ReadDir { root, rx, is_multithreaded }`. The
receiver is linearized as the list of items the consumer has yet to receive;
`rx = none` means no production session has been started. -/
structure ReadDir where
  root : AbsPath
  rx : Option (List AbsPath)
  is_multithreaded : Bool
deriving DecidableEq

/-- `ReadDir::try_new(dir)`: resolve the root (`fs::canonicalize(dir)?`,
converting an I/O failure into a `File`-kind `Error`) and build the iterator
with no receiver and single-worker mode. `canon` models the platform
resolution capability. -/
def try_new (canon : String → Except IoError AbsPath) (dir : String) :
    Except Error ReadDir :=
  match canon dir with
  | .error e => .error (Error.fromIo e)
  | .ok r => .ok { root := r, rx := none, is_multithreaded := false }

/-- `ReadDir::run`: create the channel, store the receiver and spawn the
producer selected by `is_multithreaded`, read at this moment. `produce m` is
the full sequence of items the session started in mode `m` delivers. -/
def ReadDir.run (produce : Bool → List AbsPath) (rd : ReadDir) : ReadDir :=
  { rd with rx := some (produce rd.is_multithreaded) }

/-- `<ReadDir as Iterator>::next`: start the session if none exists, then
receive: the next buffered item if one remains, the end-of-sequence signal
`none` once the channel is closed. The boolean records whether this call
started the session (the observable background-task creation). -/
def ReadDir.next (produce : Bool → List AbsPath) (rd : ReadDir) :
    Option AbsPath × ReadDir × Bool :=
  let started := rd.rx.isNone
  let rd1 := if rd.rx.isNone then rd.run produce else rd
  match rd1.rx with
  | some (x :: rest) => (some x, { rd1 with rx := some rest }, started)
  | some [] => (none, rd1, started)
  | none => (none, rd1, started)

/-- Call `next` `n` times, collecting the outputs, the session-start flags and
the final iterator state. -/
def runNexts (produce : Bool → List AbsPath) :
    Nat → ReadDir → List (Option AbsPath) × List Bool × ReadDir
  | 0, rd => ([], [], rd)
  | n + 1, rd =>
    let r1 := ReadDir.next produce rd
    let r2 := runNexts produce n r1.2.1
    (r1.1 :: r2.1, r1.2.2 :: r2.2.1, r2.2.2)

/-- Number of non-directory entries in a tree with listing `es`. -/
def numFilesL : List FsNode → Nat
  | [] => 0
  | .file _ :: rest => 1 + numFilesL rest
  | .dir _ es0 :: rest => numFilesL es0 + numFilesL rest
  | .dirFail _ _ :: rest => numFilesL rest

/-- The names of the files of a listing, in listing order. -/
def fileNames : List FsNode → List String
  | [] => []
  | .file n :: rest => n :: fileNames rest
  | .dir _ _ :: rest => fileNames rest
  | .dirFail _ _ :: rest => fileNames rest

/-- Nodup check on a list of names. -/
def namesNodupB : List String → Bool
  | [] => true
  | n :: ns => (!ns.contains n) && namesNodupB ns

/-- No listing in the tree fails. -/
def noFailB : List FsNode → Bool
  | [] => true
  | .file _ :: rest => noFailB rest
  | .dir _ es0 :: rest => noFailB es0 && noFailB rest
  | .dirFail _ _ :: _ => false

mutual

/-- Well-formed tree: within every directory the entry names are pairwise
distinct (as on a real file system). -/
def wfB (es : List FsNode) : Bool :=
  namesNodupB (es.map nodeName) && wfChildren es
termination_by (sizeOf es, 1)

/-- Auxiliary for `wfB`: every subdirectory's listing is well-formed. -/
def wfChildren : List FsNode → Bool
  | [] => true
  | .file _ :: rest => wfChildren rest
  | .dir _ es0 :: rest => wfB es0 && wfChildren rest
  | .dirFail _ _ :: rest => wfChildren rest
termination_by es => (sizeOf es, 0)

end

/-- Relative path `q` names a file below a listing `es`. -/
inductive IsFilePath : List FsNode → List String → Prop where
  | here {es : List FsNode} {a : String} :
      FsNode.file a ∈ es → IsFilePath es [a]
  | there {es es0 : List FsNode} {c : String} {q : List String} :
      FsNode.dir c es0 ∈ es → IsFilePath es0 q → IsFilePath es (c :: q)

/-- Relative path `q` names a directory below a listing `es`. -/
inductive IsDirPath : List FsNode → List String → Prop where
  | hereDir {es : List FsNode} {c : String} {es0 : List FsNode} :
      FsNode.dir c es0 ∈ es → IsDirPath es [c]
  | hereFail {es : List FsNode} {c : String} {e : IoError} :
      FsNode.dirFail c e ∈ es → IsDirPath es [c]
  | thereDir {es es0 : List FsNode} {c : String} {q : List String} :
      FsNode.dir c es0 ∈ es → IsDirPath es0 q → IsDirPath es (c :: q)

/-- The directory at relative path `q` below a listing `es` has listing
`esD`. -/
inductive DirAt : List FsNode → List String → List FsNode → Prop where
  | refl (es : List FsNode) : DirAt es [] es
  | step {es es0 esD : List FsNode} {c : String} {q : List String} :
      FsNode.dir c es0 ∈ es → DirAt es0 q esD → DirAt es (c :: q) esD

/-- `a` occurs strictly before `b` in `l`. -/
def Before (a b : AbsPath) (l : List AbsPath) : Prop :=
  ∃ l1 l2 l3, l = l1 ++ a :: l2 ++ b :: l3

/-! ### Basic lemmas -/

theorem fsStrongInd (P : List FsNode → Prop)
    (step : ∀ es, (∀ es2, sizeOf es2 < sizeOf es → P es2) → P es) : ∀ es, P es := by
  intro es
  induction' hN : sizeOf es using Nat.strongRecOn with N ih generalizing es
  subst hN
  exact step es (fun es2 h => ih _ h es2 rfl)

theorem sizeOf_tail_lt (e : FsNode) (rest : List FsNode) :
    sizeOf rest < sizeOf (e :: rest) := by
  simp only [List.cons.sizeOf_spec]
  omega

theorem sizeOf_entries_lt (n : String) (es0 rest : List FsNode) :
    sizeOf es0 < sizeOf (FsNode.dir n es0 :: rest) := by
  simp only [List.cons.sizeOf_spec, FsNode.dir.sizeOf_spec]
  omega

theorem filesOf_eq_map (p : AbsPath) (es : List FsNode) :
    filesOf p es = (fileNames es).map (fun a => p ++ [a]) := by
  induction es with
  | nil => simp [filesOf, fileNames]
  | cons e rest ih => cases e <;> simp [filesOf, fileNames, ih]

theorem filesOf_append (p : AbsPath) (l1 l2 : List FsNode) :
    filesOf p (l1 ++ l2) = filesOf p l1 ++ filesOf p l2 := by
  induction l1 with
  | nil => simp [filesOf]
  | cons e rest ih => cases e <;> simp [filesOf, ih]

theorem visitSubsP_append (p : AbsPath) (l1 l2 : List FsNode) :
    visitSubsP p (l1 ++ l2) = visitSubsP p l1 ++ visitSubsP p l2 := by
  induction l1 with
  | nil => simp [visitSubsP]
  | cons e rest ih => cases e <;> simp [visitSubsP, ih]

theorem noFailB_append (l1 l2 : List FsNode) :
    noFailB (l1 ++ l2) = (noFailB l1 && noFailB l2) := by
  induction l1 with
  | nil => simp [noFailB]
  | cons e rest ih => cases e <;> simp [noFailB, ih, Bool.and_assoc]

theorem filesOf_map_file (p : AbsPath) (ns : List String) :
    filesOf p (ns.map FsNode.file) = ns.map (fun a => p ++ [a]) := by
  induction ns with
  | nil => simp [filesOf]
  | cons n rest ih => simp [filesOf, ih]

theorem visitSubsP_map_file (p : AbsPath) (ns : List String) :
    visitSubsP p (ns.map FsNode.file) = [] := by
  induction ns with
  | nil => simp [visitSubsP]
  | cons n rest ih => simpa [visitSubsP] using ih

theorem noFailB_map_file (ns : List String) :
    noFailB (ns.map FsNode.file) = true := by
  induction ns with
  | nil => simp [noFailB]
  | cons n rest ih => simpa [noFailB] using ih

theorem fileNames_append (l1 l2 : List FsNode) :
    fileNames (l1 ++ l2) = fileNames l1 ++ fileNames l2 := by
  induction l1 with
  | nil => simp [fileNames]
  | cons e rest ih => cases e <;> simp [fileNames, ih]

theorem fileNames_map_file (ns : List String) :
    fileNames (ns.map FsNode.file) = ns := by
  induction ns with
  | nil => simp [fileNames]
  | cons n rest ih => simp [fileNames, ih]

theorem namesNodupB_sound {ns : List String} (h : namesNodupB ns = true) : ns.Nodup := by
  induction ns with
  | nil => simp
  | cons n rest ih =>
    simp only [namesNodupB, Bool.and_eq_true, Bool.not_eq_true'] at h
    refine List.nodup_cons.2 ⟨?_, ih h.2⟩
    intro hm
    have h1 := h.1
    rw [show rest.contains n = true from List.elem_iff.2 hm] at h1
    cases h1

theorem wfB_parts {es : List FsNode} (h : wfB es = true) :
    namesNodupB (es.map nodeName) = true ∧ wfChildren es = true := by
  rw [wfB, Bool.and_eq_true] at h
  exact h

theorem wfChildren_mem {es : List FsNode} (h : wfChildren es = true) :
    ∀ n es0, FsNode.dir n es0 ∈ es → wfB es0 = true := by
  induction es with
  | nil => simp
  | cons e rest ih =>
    intro n es0 hmem
    rcases List.mem_cons.1 hmem with h1 | h1
    · subst h1
      rw [wfChildren, Bool.and_eq_true] at h
      exact h.1
    · cases e with
      | file m => exact ih (by rwa [wfChildren] at h) n es0 h1
      | dir m es1 =>
        rw [wfChildren, Bool.and_eq_true] at h
        exact ih h.2 n es0 h1
      | dirFail m er => exact ih (by rwa [wfChildren] at h) n es0 h1

theorem wfB_cons {e : FsNode} {rest : List FsNode} (h : wfB (e :: rest) = true) :
    wfB rest = true ∧ nodeName e ∉ rest.map nodeName := by
  obtain ⟨hn, hc⟩ := wfB_parts h
  simp only [List.map_cons, namesNodupB, Bool.and_eq_true, Bool.not_eq_true'] at hn
  constructor
  · rw [wfB, Bool.and_eq_true]
    refine ⟨hn.2, ?_⟩
    cases e with
    | file m => rwa [wfChildren] at hc
    | dir m es1 => rw [wfChildren, Bool.and_eq_true] at hc; exact hc.2
    | dirFail m er => rwa [wfChildren] at hc
  · intro hmem
    have h1 := hn.1
    rw [show (rest.map nodeName).contains (nodeName e) = true from List.elem_iff.2 hmem] at h1
    cases h1

theorem noFailB_cons_dir {n : String} {es0 rest : List FsNode}
    (h : noFailB (FsNode.dir n es0 :: rest) = true) :
    noFailB es0 = true ∧ noFailB rest = true := by
  rw [noFailB, Bool.and_eq_true] at h
  exact h

/-! ### Channel lemmas -/

theorem send_alive_none (s : List AbsPath) (x : AbsPath) :
    Chan.send { sent := s, alive := none } x = ({ sent := s ++ [x], alive := none }, true) := by
  simp [Chan.send]

theorem send_true_sent {c c1 : Chan} {x : AbsPath} (h : Chan.send c x = (c1, true)) :
    c1.sent = c.sent ++ [x] := by
  rcases c with ⟨s, alive⟩
  cases alive with
  | none => simp [Chan.send] at h; simp [← h]
  | some k =>
    cases k with
    | zero => simp [Chan.send] at h
    | succ m => simp [Chan.send] at h; simp [← h]

theorem send_false_eq {c c1 : Chan} {x : AbsPath} (h : Chan.send c x = (c1, false)) :
    c1 = c := by
  rcases c with ⟨s, alive⟩
  cases alive with
  | none => simp [Chan.send] at h
  | some k =>
    cases k with
    | zero => simp [Chan.send] at h; simp [← h]
    | succ m => simp [Chan.send] at h

theorem sendFiles_alive_none (p : AbsPath) (es : List FsNode) :
    ∀ s, sendFiles p { sent := s, alive := none } es
      = ({ sent := s ++ filesOf p es, alive := none }, none) := by
  induction es with
  | nil => intro s; simp [sendFiles, filesOf]
  | cons e rest ih =>
    intro s
    cases e with
    | file n => rw [sendFiles]; rw [send_alive_none]; simp [filesOf, ih]
    | dir n es0 => simpa [sendFiles, filesOf] using ih s
    | dirFail n er => simpa [sendFiles, filesOf] using ih s

theorem sendFiles_ok_sent {p : AbsPath} {es : List FsNode} {c c1 : Chan}
    (h : sendFiles p c es = (c1, none)) : c1.sent = c.sent ++ filesOf p es := by
  induction es generalizing c with
  | nil => simp_all [sendFiles, filesOf]
  | cons e rest ih =>
    cases e with
    | file n =>
      rw [sendFiles] at h
      rcases hs : Chan.send c (p ++ [n]) with ⟨c2, b⟩
      rw [hs] at h
      cases b with
      | true =>
        have := ih h
        rw [this, send_true_sent hs]
        simp [filesOf]
      | false => simp at h
    | dir n es0 =>
      rw [sendFiles] at h
      rw [ih h]
      simp [filesOf]
    | dirFail n er =>
      rw [sendFiles] at h
      rw [ih h]
      simp [filesOf]

theorem sendFiles_sent_shape (p : AbsPath) (es : List FsNode) (c : Chan) :
    ∃ ns : List String, (sendFiles p c es).1.sent = c.sent ++ ns.map (fun a => p ++ [a]) := by
  induction es generalizing c with
  | nil => exact ⟨[], by simp [sendFiles]⟩
  | cons e rest ih =>
    cases e with
    | file n =>
      rw [sendFiles]
      rcases hs : Chan.send c (p ++ [n]) with ⟨c1, b⟩
      cases b with
      | true =>
        obtain ⟨ns, hns⟩ := ih c1
        refine ⟨n :: ns, ?_⟩
        simp [hns, send_true_sent hs]
      | false =>
        refine ⟨[], ?_⟩
        simp [send_false_eq hs]
    | dir n es0 => rw [sendFiles]; exact ih c
    | dirFail n er => rw [sendFiles]; exact ih c

/-! ### The no-failure bridge: a run over a failure-free tree with a live
consumer delivers exactly the pure traversal sequence. -/

theorem visitPL_nil (p : AbsPath) : visitPL p [] = [] := by
  simp [visitPL, filesOf, visitSubsP]

theorem visitSubs_noFail :
    ∀ es p s, noFailB es = true →
      visitSubs p es { sent := s, alive := none }
        = ({ sent := s ++ visitSubsP p es, alive := none }, none) := by
  refine fsStrongInd _ ?_
  intro es ih p s hnf
  match es with
  | [] => simp [visitSubs, visitSubsP]
  | .file n :: rest =>
    rw [noFailB] at hnf
    rw [visitSubs, visitSubsP]
    exact ih rest (sizeOf_tail_lt _ _) p s hnf
  | .dir n es0 :: rest =>
    obtain ⟨h0, hr⟩ := noFailB_cons_dir hnf
    rw [visitSubs]
    have hsub : visit (p ++ [n]) (FsNode.dir n es0) { sent := s, alive := none }
        = ({ sent := s ++ visitPL (p ++ [n]) es0, alive := none }, none) := by
      rw [visit, sendFiles_alive_none]
      show visitSubs (p ++ [n]) es0 { sent := s ++ filesOf (p ++ [n]) es0, alive := none } = _
      rw [ih es0 (sizeOf_entries_lt _ _ _) (p ++ [n]) (s ++ filesOf (p ++ [n]) es0) h0]
      simp [visitPL]
    rw [hsub]
    show visitSubs p rest { sent := s ++ visitPL (p ++ [n]) es0, alive := none } = _
    rw [ih rest (sizeOf_tail_lt _ _) p (s ++ visitPL (p ++ [n]) es0) hr]
    simp [visitSubsP]
  | .dirFail n er :: rest => rw [noFailB] at hnf; cases hnf

theorem visit_noFail (p : AbsPath) (dn : String) (es : List FsNode) (s : List AbsPath)
    (h : noFailB es = true) :
    visit p (FsNode.dir dn es) { sent := s, alive := none }
      = ({ sent := s ++ visitPL p es, alive := none }, none) := by
  rw [visit, sendFiles_alive_none]
  show visitSubs p es { sent := s ++ filesOf p es, alive := none } = _
  rw [visitSubs_noFail es p (s ++ filesOf p es) h]
  simp [visitPL]

/-! ### Success analysis: a producer run that returns no error has visited a
failure-free tree and delivered exactly the pure traversal sequence. -/

theorem visitSubs_ok :
    ∀ es p c c1, visitSubs p es c = (c1, none) →
      noFailB es = true ∧ c1.sent = c.sent ++ visitSubsP p es := by
  refine fsStrongInd _ ?_
  intro es ih p c c1 h
  match es with
  | [] =>
    rw [visitSubs] at h
    cases h
    simp [noFailB, visitSubsP]
  | .file n :: rest =>
    rw [visitSubs] at h
    have := ih rest (sizeOf_tail_lt _ _) p c c1 h
    simpa [noFailB, visitSubsP] using this
  | .dir n es0 :: rest =>
    rw [visitSubs] at h
    rcases hv : visit (p ++ [n]) (FsNode.dir n es0) c with ⟨c2, opt⟩
    rw [hv] at h
    cases opt with
    | some er => simp at h
    | none =>
      obtain ⟨hr, hs⟩ := ih rest (sizeOf_tail_lt _ _) p c2 c1 h
      rw [visit] at hv
      rcases hf : sendFiles (p ++ [n]) c es0 with ⟨c3, fopt⟩
      rw [hf] at hv
      cases fopt with
      | some er3 => simp at hv
      | none =>
        obtain ⟨h0, hs0⟩ := ih es0 (sizeOf_entries_lt _ _ _) (p ++ [n]) c3 c2 hv
        have hc3 : c3.sent = c.sent ++ filesOf (p ++ [n]) es0 := sendFiles_ok_sent hf
        refine ⟨by simp [noFailB, h0, hr], ?_⟩
        rw [hs, hs0, hc3]
        simp [visitSubsP, visitPL]
  | .dirFail n er0 :: rest =>
    rw [visitSubs] at h
    rw [visit] at h
    simp at h

theorem visit_ok {p : AbsPath} {d : FsNode} {c c1 : Chan}
    (h : visit p d c = (c1, none)) :
    ∃ dn es, d = FsNode.dir dn es ∧ noFailB es = true ∧
      c1.sent = c.sent ++ visitPL p es := by
  cases d with
  | file n => rw [visit] at h; simp at h
  | dirFail n er => rw [visit] at h; simp at h
  | dir dn es =>
    refine ⟨dn, es, rfl, ?_⟩
    rw [visit] at h
    rcases hf : sendFiles p c es with ⟨c3, fopt⟩
    rw [hf] at h
    cases fopt with
    | some er3 => simp at h
    | none =>
      obtain ⟨h0, hs0⟩ := visitSubs_ok es p c3 c1 h
      refine ⟨h0, ?_⟩
      rw [hs0, sendFiles_ok_sent hf]
      simp [visitPL]

/-! ### Failure analysis: a producer run that aborts with an error has
delivered exactly what a full run over some smaller failure-free tree
delivers (the sequence is truncated at the failure point). -/

theorem visitSubs_err :
    ∀ es p c c1 er, visitSubs p es c = (c1, some er) →
      ∃ ds, noFailB ds = true ∧ filesOf p ds = [] ∧
        c1.sent = c.sent ++ visitSubsP p ds := by
  refine fsStrongInd _ ?_
  intro es ih p c c1 er h
  match es with
  | [] => rw [visitSubs] at h; simp at h
  | .file n :: rest =>
    rw [visitSubs] at h
    exact ih rest (sizeOf_tail_lt _ _) p c c1 er h
  | .dir n es0 :: rest =>
    rw [visitSubs] at h
    rcases hv : visit (p ++ [n]) (FsNode.dir n es0) c with ⟨c2, opt⟩
    rw [hv] at h
    cases opt with
    | none =>
      obtain ⟨dn2, es2, heq, h0, hs2⟩ := visit_ok hv
      cases heq
      obtain ⟨ds, hds0, hds1, hds2⟩ := ih rest (sizeOf_tail_lt _ _) p c2 c1 er h
      refine ⟨FsNode.dir n es0 :: ds, ?_, ?_, ?_⟩
      · simp [noFailB, h0, hds0]
      · simp [filesOf, hds1]
      · rw [hds2, hs2]
        simp [visitSubsP]
    | some er2 =>
      simp only [Prod.mk.injEq] at h
      obtain ⟨hc, he⟩ := h
      subst hc
      rw [visit] at hv
      rcases hf : sendFiles (p ++ [n]) c es0 with ⟨c3, fopt⟩
      rw [hf] at hv
      cases fopt with
      | some er3 =>
        simp only [Prod.mk.injEq] at hv
        obtain ⟨hc3, _⟩ := hv
        subst hc3
        obtain ⟨ns, hns⟩ := sendFiles_sent_shape (p ++ [n]) es0 c
        rw [hf] at hns
        refine ⟨[FsNode.dir n (ns.map FsNode.file)], ?_, ?_, ?_⟩
        · simp [noFailB, noFailB_map_file]
        · simp [filesOf]
        · simp only [visitSubsP, visitPL, filesOf_map_file, visitSubsP_map_file]
          simpa [filesOf, visitSubsP] using hns
      | none =>
        obtain ⟨ds0, hds0, hds1, hds2⟩ := ih es0 (sizeOf_entries_lt _ _ _) (p ++ [n]) c3 c2 er2 hv
        have hc3 : c3.sent = c.sent ++ filesOf (p ++ [n]) es0 := sendFiles_ok_sent hf
        refine ⟨[FsNode.dir n ((fileNames es0).map FsNode.file ++ ds0)], ?_, ?_, ?_⟩
        · simp [noFailB, noFailB_append, noFailB_map_file, hds0]
        · simp [filesOf]
        · have hfn : fileNames ds0 = [] := by
            rw [filesOf_eq_map] at hds1
            exact List.map_eq_nil_iff.1 hds1
          rw [hds2, hc3]
          simp only [visitSubsP, visitPL, filesOf_append, visitSubsP_append,
            filesOf_map_file, visitSubsP_map_file, filesOf_eq_map]
          simp [hds1, filesOf_eq_map, fileNames_append, fileNames_map_file, hfn]
  | .dirFail n er0 :: rest =>
    rw [visitSubs] at h
    rw [visit] at h
    simp only [Prod.mk.injEq] at h
    obtain ⟨hc, _⟩ := h
    subst hc
    exact ⟨[], by simp [noFailB], by simp [filesOf], by simp [visitSubsP]⟩

theorem visit_err {p : AbsPath} {d : FsNode} {c c1 : Chan} {er : Error}
    (h : visit p d c = (c1, some er)) :
    ∃ es1, noFailB es1 = true ∧ c1.sent = c.sent ++ visitPL p es1 := by
  cases d with
  | file n =>
    rw [visit] at h
    simp only [Prod.mk.injEq] at h
    obtain ⟨hc, _⟩ := h
    subst hc
    exact ⟨[], by simp [noFailB], by simp [visitPL_nil]⟩
  | dirFail n er0 =>
    rw [visit] at h
    simp only [Prod.mk.injEq] at h
    obtain ⟨hc, _⟩ := h
    subst hc
    exact ⟨[], by simp [noFailB], by simp [visitPL_nil]⟩
  | dir dn es =>
    rw [visit] at h
    rcases hf : sendFiles p c es with ⟨c3, fopt⟩
    rw [hf] at h
    cases fopt with
    | some er3 =>
      simp only [Prod.mk.injEq] at h
      obtain ⟨hc, _⟩ := h
      subst hc
      obtain ⟨ns, hns⟩ := sendFiles_sent_shape p es c
      rw [hf] at hns
      refine ⟨ns.map FsNode.file, noFailB_map_file ns, ?_⟩
      simp only [visitPL, filesOf_map_file, visitSubsP_map_file]
      simpa using hns
    | none =>
      obtain ⟨ds, hds0, hds1, hds2⟩ := visitSubs_err es p c3 c1 er h
      have hc3 : c3.sent = c.sent ++ filesOf p es := sendFiles_ok_sent hf
      refine ⟨(fileNames es).map FsNode.file ++ ds, ?_, ?_⟩
      · simp [noFailB_append, noFailB_map_file, hds0]
      · have hfn : fileNames ds = [] := by
          rw [filesOf_eq_map] at hds1
          exact List.map_eq_nil_iff.1 hds1
        rw [hds2, hc3]
        simp only [visitPL, filesOf_append, visitSubsP_append, filesOf_map_file,
          visitSubsP_map_file, filesOf_eq_map]
        simp [hds1, filesOf_eq_map, fileNames_append, fileNames_map_file, hfn]

/-! ### Characterizing the delivered paths -/

theorem mem_filesOf {p x : AbsPath} {es : List FsNode} :
    x ∈ filesOf p es ↔ ∃ a, x = p ++ [a] ∧ FsNode.file a ∈ es := by
  induction es with
  | nil => simp [filesOf]
  | cons e rest ih =>
    cases e with
    | file n =>
      simp only [filesOf, List.mem_cons, ih]
      constructor
      · rintro (h | ⟨a, h1, h2⟩)
        · exact ⟨n, h, Or.inl rfl⟩
        · exact ⟨a, h1, Or.inr h2⟩
      · rintro ⟨a, h1, h2 | h2⟩
        · cases h2; exact Or.inl h1
        · exact Or.inr ⟨a, h1, h2⟩
    | dir n es0 =>
      simp only [filesOf, List.mem_cons, ih]
      constructor
      · rintro ⟨a, h1, h2⟩; exact ⟨a, h1, Or.inr h2⟩
      · rintro ⟨a, h1, h2 | h2⟩
        · cases h2
        · exact ⟨a, h1, h2⟩
    | dirFail n er =>
      simp only [filesOf, List.mem_cons, ih]
      constructor
      · rintro ⟨a, h1, h2⟩; exact ⟨a, h1, Or.inr h2⟩
      · rintro ⟨a, h1, h2 | h2⟩
        · cases h2
        · exact ⟨a, h1, h2⟩

theorem isFilePath_iff (es : List FsNode) (q : List String) :
    IsFilePath es q ↔
      (∃ a, q = [a] ∧ FsNode.file a ∈ es) ∨
      (∃ n es0 q1, FsNode.dir n es0 ∈ es ∧ q = n :: q1 ∧ IsFilePath es0 q1) := by
  constructor
  · intro h
    cases h with
    | here hm => exact Or.inl ⟨_, rfl, hm⟩
    | there hm hq => exact Or.inr ⟨_, _, _, hm, rfl, hq⟩
  · rintro (⟨a, rfl, hm⟩ | ⟨n, es0, q1, hm, rfl, hq⟩)
    · exact IsFilePath.here hm
    · exact IsFilePath.there hm hq

theorem visitPL_mem_assemble (p0 : AbsPath) (es0 : List FsNode)
    (hsubs : ∀ x, x ∈ visitSubsP p0 es0 ↔
      ∃ n esd q, FsNode.dir n esd ∈ es0 ∧ x = p0 ++ n :: q ∧ IsFilePath esd q) :
    ∀ x, x ∈ visitPL p0 es0 ↔ ∃ q, x = p0 ++ q ∧ IsFilePath es0 q := by
  intro x
  rw [visitPL, List.mem_append, mem_filesOf, hsubs]
  constructor
  · rintro (⟨a, h1, h2⟩ | ⟨n, esd, q, hm, h1, hq⟩)
    · exact ⟨[a], h1, IsFilePath.here h2⟩
    · exact ⟨n :: q, h1, IsFilePath.there hm hq⟩
  · rintro ⟨q, h1, hq⟩
    rcases (isFilePath_iff es0 q).1 hq with ⟨a, rfl, hm⟩ | ⟨n, esd, q1, hm, rfl, hq1⟩
    · exact Or.inl ⟨a, h1, hm⟩
    · exact Or.inr ⟨n, esd, q1, hm, h1, hq1⟩

theorem mem_visitSubsP :
    ∀ es p x, x ∈ visitSubsP p es ↔
      ∃ n esd q, FsNode.dir n esd ∈ es ∧ x = p ++ n :: q ∧ IsFilePath esd q := by
  refine fsStrongInd _ ?_
  intro es ih p x
  match es with
  | [] => simp [visitSubsP]
  | .file n :: rest =>
    rw [visitSubsP, ih rest (sizeOf_tail_lt _ _)]
    constructor
    · rintro ⟨m, esd, q, hm, h1, hq⟩
      exact ⟨m, esd, q, List.mem_cons_of_mem _ hm, h1, hq⟩
    · rintro ⟨m, esd, q, hm, h1, hq⟩
      rcases List.mem_cons.1 hm with h3 | h3
      · cases h3
      · exact ⟨m, esd, q, h3, h1, hq⟩
  | .dirFail n er :: rest =>
    rw [visitSubsP, ih rest (sizeOf_tail_lt _ _)]
    constructor
    · rintro ⟨m, esd, q, hm, h1, hq⟩
      exact ⟨m, esd, q, List.mem_cons_of_mem _ hm, h1, hq⟩
    · rintro ⟨m, esd, q, hm, h1, hq⟩
      rcases List.mem_cons.1 hm with h3 | h3
      · cases h3
      · exact ⟨m, esd, q, h3, h1, hq⟩
  | .dir n es0 :: rest =>
    rw [visitSubsP, List.mem_append]
    have hblock := visitPL_mem_assemble (p ++ [n]) es0
      (fun y => ih es0 (sizeOf_entries_lt _ _ _) (p ++ [n]) y) x
    rw [hblock, ih rest (sizeOf_tail_lt _ _)]
    constructor
    · rintro (⟨q, h1, hq⟩ | ⟨m, esd, q, hm, h1, hq⟩)
      · exact ⟨n, es0, q, List.mem_cons_self _ _, by simpa using h1, hq⟩
      · exact ⟨m, esd, q, List.mem_cons_of_mem _ hm, h1, hq⟩
    · rintro ⟨m, esd, q, hm, h1, hq⟩
      rcases List.mem_cons.1 hm with h3 | h3
      · rcases FsNode.dir.inj h3 with ⟨rfl, rfl⟩
        exact Or.inl ⟨q, by simpa using h1, hq⟩
      · exact Or.inr ⟨m, esd, q, h3, h1, hq⟩

theorem mem_visitPL {p x : AbsPath} {es : List FsNode} :
    x ∈ visitPL p es ↔ ∃ q, x = p ++ q ∧ IsFilePath es q :=
  visitPL_mem_assemble p es (fun y => mem_visitSubsP es p y) x

theorem isFilePath_ne_nil {es : List FsNode} {q : List String} (h : IsFilePath es q) :
    q ≠ [] := by
  cases h <;> simp

/-! ### No duplicates -/

theorem nodup_map_inj {α β : Type} {f : α → β} {l : List α}
    (h : (l.map f).Nodup) : ∀ x ∈ l, ∀ y ∈ l, f x = f y → x = y := by
  induction l with
  | nil => simp
  | cons a rest ih =>
    simp only [List.map_cons, List.nodup_cons] at h
    intro x hx y hy hf
    rcases List.mem_cons.1 hx with rfl | hx2
    · rcases List.mem_cons.1 hy with rfl | hy2
      · rfl
      · exact absurd (hf ▸ List.mem_map_of_mem f hy2) h.1
    · rcases List.mem_cons.1 hy with rfl | hy2
      · exact absurd (hf ▸ List.mem_map_of_mem f hx2) h.1
      · exact ih h.2 x hx2 y hy2 hf

theorem fileNames_sublist (es : List FsNode) :
    List.Sublist (fileNames es) (es.map nodeName) := by
  induction es with
  | nil => simp [fileNames]
  | cons e rest ih =>
    cases e with
    | file n => simpa [fileNames, nodeName] using List.Sublist.cons₂ n ih
    | dir n es0 =>
      simp only [fileNames, List.map_cons]
      exact List.sublist_cons_of_sublist _ ih
    | dirFail n er =>
      simp only [fileNames, List.map_cons]
      exact List.sublist_cons_of_sublist _ ih

theorem filesOf_nodup {p : AbsPath} {es : List FsNode} (h : wfB es = true) :
    (filesOf p es).Nodup := by
  rw [filesOf_eq_map]
  refine List.Nodup.map ?_ ?_
  · intro a b hab
    have := List.append_cancel_left hab
    simpa using this
  · exact ((fileNames_sublist es).nodup (namesNodupB_sound (wfB_parts h).1))

theorem visitSubsP_nodup :
    ∀ es p, wfB es = true → (visitSubsP p es).Nodup := by
  refine fsStrongInd _ ?_
  intro es ih p hwf
  match es with
  | [] => simp [visitSubsP]
  | .file n :: rest =>
    rw [visitSubsP]
    exact ih rest (sizeOf_tail_lt _ _) p (wfB_cons hwf).1
  | .dirFail n er :: rest =>
    rw [visitSubsP]
    exact ih rest (sizeOf_tail_lt _ _) p (wfB_cons hwf).1
  | .dir n es0 :: rest =>
    rw [visitSubsP]
    have hwf0 : wfB es0 = true :=
      wfChildren_mem (wfB_parts hwf).2 n es0 (List.mem_cons_self _ _)
    have hrest : wfB rest = true := (wfB_cons hwf).1
    have hblock : (visitPL (p ++ [n]) es0).Nodup := by
      rw [visitPL]
      refine List.Nodup.append (filesOf_nodup hwf0)
        (ih es0 (sizeOf_entries_lt _ _ _) (p ++ [n]) hwf0) ?_
      intro x hx1 hx2
      obtain ⟨a, ha, _⟩ := mem_filesOf.1 hx1
      obtain ⟨m, esd, q, _, hxe, hq⟩ := (mem_visitSubsP es0 (p ++ [n]) x) |>.1 hx2
      rw [ha] at hxe
      have hlen := congrArg List.length hxe
      simp at hlen
      exact isFilePath_ne_nil hq hlen
    refine List.Nodup.append hblock (ih rest (sizeOf_tail_lt _ _) p hrest) ?_
    intro x hx1 hx2
    obtain ⟨q, hxq, hq⟩ := mem_visitPL.1 hx1
    obtain ⟨m, esd, q2, hmem, hxe, hq2⟩ := (mem_visitSubsP rest p x).1 hx2
    rw [hxq] at hxe
    have hx3 : n :: q = m :: q2 := by
      have : (p ++ [n]) ++ q = p ++ m :: q2 := by simpa using hxe
      rw [List.append_assoc] at this
      simpa using List.append_cancel_left this
    have hne : n ≠ m := by
      intro hnm
      apply (wfB_cons hwf).2
      have : nodeName (FsNode.dir m esd) ∈ rest.map nodeName :=
        List.mem_map_of_mem nodeName hmem
      simpa [nodeName, hnm] using this
    exact hne (List.cons.inj hx3).1

theorem visitPL_nodup {p : AbsPath} {es : List FsNode} (h : wfB es = true) :
    (visitPL p es).Nodup := by
  rw [visitPL]
  refine List.Nodup.append (filesOf_nodup h) (visitSubsP_nodup es p h) ?_
  intro x hx1 hx2
  obtain ⟨a, ha, _⟩ := mem_filesOf.1 hx1
  obtain ⟨m, esd, q, _, hxe, hq⟩ := (mem_visitSubsP es p x).1 hx2
  rw [ha] at hxe
  have hlen := congrArg List.length hxe
  simp at hlen
  exact isFilePath_ne_nil hq hlen

/-! ### Number of delivered paths -/

theorem visitSubsP_length :
    ∀ es p, (visitSubsP p es).length + (fileNames es).length = numFilesL es := by
  refine fsStrongInd _ ?_
  intro es ih p
  match es with
  | [] => simp [visitSubsP, fileNames, numFilesL]
  | .file n :: rest =>
    rw [visitSubsP, fileNames, numFilesL]
    have := ih rest (sizeOf_tail_lt _ _) p
    simp only [List.length_cons]
    omega
  | .dirFail n er :: rest =>
    rw [visitSubsP, fileNames, numFilesL]
    exact ih rest (sizeOf_tail_lt _ _) p
  | .dir n es0 :: rest =>
    rw [visitSubsP, fileNames, numFilesL]
    have h0 := ih es0 (sizeOf_entries_lt _ _ _) (p ++ [n])
    have hr := ih rest (sizeOf_tail_lt _ _) p
    have hPL : (visitPL (p ++ [n]) es0).length = numFilesL es0 := by
      rw [visitPL, List.length_append, filesOf_eq_map, List.length_map]
      omega
    simp only [List.length_append]
    omega

theorem visitPL_length (p : AbsPath) (es : List FsNode) :
    (visitPL p es).length = numFilesL es := by
  rw [visitPL, List.length_append, filesOf_eq_map, List.length_map]
  have := visitSubsP_length es p
  omega

/-! ### The fan-out producer delivers the same bag of paths -/

theorem visitPL_multiset :
    ∀ es p, (visitPL p es : Multiset AbsPath) = visitMTL p es := by
  refine fsStrongInd _ ?_
  intro es ih p
  match es with
  | [] => simp [visitPL_nil, visitMTL]
  | .file n :: rest =>
    have := ih rest (sizeOf_tail_lt _ _) p
    rw [visitMTL, ← this, visitPL, visitPL, visitSubsP, filesOf]
    simp
  | .dirFail n er :: rest =>
    have := ih rest (sizeOf_tail_lt _ _) p
    rw [visitMTL, ← this, visitPL, visitPL, visitSubsP, filesOf]
  | .dir n es0 :: rest =>
    have h0 := ih es0 (sizeOf_entries_lt _ _ _) (p ++ [n])
    have hr := ih rest (sizeOf_tail_lt _ _) p
    rw [visitMTL, ← h0, ← hr]
    simp only [visitPL, visitSubsP, filesOf, ← Multiset.coe_add]
    abel

/-! ### Order of delivery: a directory's own files precede all files of its
descendants (single-worker mode) -/

theorem mem_filesOf_split {p : AbsPath} {es : List FsNode} {a : String}
    (h : FsNode.file a ∈ es) :
    ∃ f1 f2, filesOf p es = f1 ++ (p ++ [a]) :: f2 := by
  induction es with
  | nil => cases h
  | cons e rest ih =>
    rcases List.mem_cons.1 h with h1 | h1
    · subst h1
      exact ⟨[], filesOf p rest, by simp [filesOf]⟩
    · obtain ⟨f1, f2, hf⟩ := ih h1
      cases e with
      | file n => exact ⟨(p ++ [n]) :: f1, f2, by simp [filesOf, hf]⟩
      | dir n es0 => exact ⟨f1, f2, by simp [filesOf, hf]⟩
      | dirFail n er => exact ⟨f1, f2, by simp [filesOf, hf]⟩

theorem subsP_block_split {p : AbsPath} {es : List FsNode} {n : String}
    {esC : List FsNode} (h : FsNode.dir n esC ∈ es) :
    ∃ s1 s2, visitSubsP p es = s1 ++ (visitPL (p ++ [n]) esC ++ s2) := by
  induction es with
  | nil => cases h
  | cons e rest ih =>
    rcases List.mem_cons.1 h with h1 | h1
    · subst h1
      exact ⟨[], visitSubsP p rest, by simp [visitSubsP]⟩
    · obtain ⟨s1, s2, hs⟩ := ih h1
      cases e with
      | file m => exact ⟨s1, s2, by rw [visitSubsP]; exact hs⟩
      | dir m esm =>
        exact ⟨visitPL (p ++ [m]) esm ++ s1, s2, by rw [visitSubsP, hs]; simp⟩
      | dirFail m er => exact ⟨s1, s2, by rw [visitSubsP]; exact hs⟩

theorem before_pure :
    ∀ {es : List FsNode} {D : List String} {esD : List FsNode},
      DirAt es D esD →
      ∀ {a c0 : String} {esC : List FsNode} {q : List String},
        FsNode.file a ∈ esD → FsNode.dir c0 esC ∈ esD → IsFilePath esC q →
        ∀ p, Before (p ++ (D ++ [a])) (p ++ (D ++ c0 :: q)) (visitPL p es) := by
  intro es D esD hD
  induction hD with
  | refl es1 =>
    intro a c0 esC q ha hc hq p
    obtain ⟨f1, f2, hf⟩ := @mem_filesOf_split p _ _ ha
    obtain ⟨s1, s2, hs⟩ := @subsP_block_split p _ _ _ hc
    have hB : (p ++ [c0]) ++ q ∈ visitPL (p ++ [c0]) esC := mem_visitPL.2 ⟨q, rfl, hq⟩
    obtain ⟨t1, t2, ht⟩ := List.append_of_mem hB
    refine ⟨f1, f2 ++ s1 ++ t1, t2 ++ s2, ?_⟩
    rw [visitPL, hf, hs, ht]
    simp [List.append_assoc]
  | @step es2 es02 esD2 c2 D2 hm hD0 ih =>
    intro a c0 esC q ha hc hq p
    obtain ⟨s1, s2, hs⟩ := @subsP_block_split p _ _ _ hm
    obtain ⟨l1, l2, l3, hl⟩ := ih ha hc hq (p ++ [c2])
    refine ⟨filesOf p es2 ++ (s1 ++ l1), l2, l3 ++ s2, ?_⟩
    rw [visitPL, hs, hl]
    simp [List.append_assoc]

/-! ### A path cannot name both a file and a directory in a well-formed tree -/

theorem filePath_not_dirPath :
    ∀ {es : List FsNode} {q : List String},
      IsFilePath es q → wfB es = true → IsDirPath es q → False := by
  intro es q hf
  induction hf with
  | here hm =>
    intro hwf hd
    have hnd := namesNodupB_sound (wfB_parts hwf).1
    cases hd with
    | hereDir hm2 =>
      have := nodup_map_inj hnd _ hm _ hm2 (by simp [nodeName])
      cases this
    | hereFail hm2 =>
      have := nodup_map_inj hnd _ hm _ hm2 (by simp [nodeName])
      cases this
    | thereDir hm2 hd0 => cases hd0
  | there hm hf0 ih =>
    intro hwf hd
    have hnd := namesNodupB_sound (wfB_parts hwf).1
    cases hd with
    | hereDir hm2 => cases hf0
    | hereFail hm2 => cases hf0
    | thereDir hm2 hd0 =>
      have heq := nodup_map_inj hnd _ hm _ hm2 (by simp [nodeName])
      rcases FsNode.dir.inj heq with ⟨_, rfl⟩
      exact ih (wfChildren_mem (wfB_parts hwf).2 _ _ hm) hd0

/-! ### Iterator lemmas -/

theorem next_some_nil {produce : Bool → List AbsPath} {rd : ReadDir}
    (h : rd.rx = some []) : ReadDir.next produce rd = (none, rd, false) := by
  simp [ReadDir.next, h]

theorem next_some_cons {produce : Bool → List AbsPath} {rd : ReadDir}
    {x : AbsPath} {r : List AbsPath} (h : rd.rx = some (x :: r)) :
    ReadDir.next produce rd = (some x, { rd with rx := some r }, false) := by
  simp [ReadDir.next, h]

theorem next_fresh {produce : Bool → List AbsPath} {rd : ReadDir} (h : rd.rx = none) :
    ReadDir.next produce rd
      = ((produce rd.is_multithreaded).head?,
         { rd with rx := some (produce rd.is_multithreaded).tail }, true) := by
  cases hL : produce rd.is_multithreaded with
  | nil => simp [ReadDir.next, ReadDir.run, h, hL]
  | cons x r => simp [ReadDir.next, ReadDir.run, h, hL]

theorem runNexts_started :
    ∀ (n : Nat) (l : List AbsPath) (rd : ReadDir) (produce : Bool → List AbsPath),
      rd.rx = some l →
      runNexts produce n rd
        = ((l.map some ++ List.replicate (n - l.length) none).take n,
           List.replicate n false,
           { rd with rx := some (l.drop n) }) := by
  intro n
  induction n with
  | zero =>
    intro l rd produce h
    rcases rd with ⟨root, rx, mt⟩
    simp only at h
    subst h
    simp [runNexts]
  | succ n ih =>
    intro l rd produce h
    cases l with
    | nil =>
      rw [runNexts]
      simp only [next_some_nil h]
      rw [ih [] rd produce h]
      simp [List.take_replicate, List.replicate_succ]
    | cons x r =>
      rw [runNexts]
      simp only [next_some_cons h]
      rw [ih r { rd with rx := some r } produce (by simp)]
      simp [Nat.succ_sub_succ, List.replicate_succ]

theorem runNexts_fresh {produce : Bool → List AbsPath} {rd : ReadDir}
    (h : rd.rx = none) (n : Nat) :
    (runNexts produce (n + 1) rd).1
      = ((produce rd.is_multithreaded).map some
          ++ List.replicate (n + 1 - (produce rd.is_multithreaded).length) none).take (n + 1) ∧
    (runNexts produce (n + 1) rd).2.1 = true :: List.replicate n false := by
  rw [runNexts]
  cases hL : produce rd.is_multithreaded with
  | nil =>
    simp only [next_fresh h, hL]
    rw [runNexts_started n [] { rd with rx := some List.nil.tail } produce (by simp)]
    constructor <;> simp [List.take_replicate, List.replicate_succ]
  | cons x r =>
    simp only [next_fresh h, hL]
    rw [runNexts_started n r { rd with rx := some (x :: r).tail } produce (by simp)]
    constructor <;> simp [Nat.succ_sub_succ]

theorem next_none_rx {produce : Bool → List AbsPath} {rd : ReadDir}
    (h : (ReadDir.next produce rd).1 = none) :
    (ReadDir.next produce rd).2.1.rx = some [] := by
  cases hrx : rd.rx with
  | none =>
    rw [next_fresh hrx] at h ⊢
    cases hL : produce rd.is_multithreaded with
    | nil => simp [hL]
    | cons x r => rw [hL] at h; simp at h
  | some l =>
    cases l with
    | nil => rw [next_some_nil hrx]; exact hrx
    | cons x r => rw [next_some_cons hrx] at h; simp at h

theorem taskEvents_eq_map (p : AbsPath) (es : List FsNode) :
    taskEvents p es = es.map (eventOf p) := by
  induction es with
  | nil => simp [taskEvents]
  | cons e rest ih => cases e <;> simp [taskEvents, eventOf, ih]

theorem taskEvents_get (p : AbsPath) :
    ∀ (es : List FsNode) (i : Nat)
      (h1 : i < (taskEvents p es).length) (h2 : i < es.length),
      (taskEvents p es).get ⟨i, h1⟩ = eventOf p (es.get ⟨i, h2⟩) := by
  intro es
  induction es with
  | nil => intro i h1 h2; exact absurd h2 (by simp)
  | cons e rest ih =>
    intro i h1 h2
    cases i with
    | zero => cases e <;> rfl
    | succ m =>
      cases e with
      | file n =>
        exact ih m (by simpa [taskEvents] using h1) (by simpa using h2)
      | dir n es0 =>
        exact ih m (by simpa [taskEvents] using h1) (by simpa using h2)
      | dirFail n er =>
        exact ih m (by simpa [taskEvents] using h1) (by simpa using h2)

/-- A full drain of a fresh single-worker walker whose session delivers `out`:
each path once, then exactly one end-of-sequence signal. -/
theorem drain_exact (produce : Bool → List AbsPath) (p : AbsPath) (out : List AbsPath)
    (hp : produce false = out) :
    (runNexts produce (out.length + 1)
        { root := p, rx := none, is_multithreaded := false }).1
      = out.map some ++ [none] := by
  obtain ⟨hout, _⟩ :=
    @runNexts_fresh produce { root := p, rx := none, is_multithreaded := false }
      rfl out.length
  rw [hout]
  have hmt : ({ root := p, rx := none, is_multithreaded := false } : ReadDir).is_multithreaded
      = false := rfl
  rw [hmt, hp]
  have h1 : out.length + 1 - out.length = 1 := by omega
  rw [h1]
  have h2 : List.replicate 1 (none : Option AbsPath) = [none] := by simp
  rw [h2]
  have hl2 : (out.map some ++ [none]).length = out.length + 1 := by simp
  rw [← hl2, List.take_length]

/-! ### The claims -/

/-- C1: for a failure-free, well-formed tree, single-worker mode delivers
exactly `numFilesL es` pairwise-distinct paths, each the path of a file of the
tree and none the path of a directory, and draining the walker yields exactly
those paths followed by exactly one end-of-sequence signal. -/
theorem c1_single_worker_drain (p : AbsPath) (dn : String) (es : List FsNode)
    (produce : Bool → List AbsPath)
    (hnf : noFailB es = true) (hwf : wfB es = true)
    (hp : produce false
      = (visit p (FsNode.dir dn es) { sent := [], alive := none }).1.sent) :
    (visit p (FsNode.dir dn es) { sent := [], alive := none }).1.sent.length
        = numFilesL es ∧
    (visit p (FsNode.dir dn es) { sent := [], alive := none }).1.sent.Nodup ∧
    (∀ x ∈ (visit p (FsNode.dir dn es) { sent := [], alive := none }).1.sent,
      ∃ q, x = p ++ q ∧ IsFilePath es q) ∧
    (∀ x ∈ (visit p (FsNode.dir dn es) { sent := [], alive := none }).1.sent,
      ∀ q, x = p ++ q → ¬ IsDirPath es q) ∧
    (runNexts produce (numFilesL es + 1)
        { root := p, rx := none, is_multithreaded := false }).1
      = (visit p (FsNode.dir dn es) { sent := [], alive := none }).1.sent.map some
          ++ [none] := by
  have hv := visit_noFail p dn es [] hnf
  rw [hv] at hp ⊢
  simp only [List.nil_append] at hp ⊢
  refine ⟨visitPL_length p es, visitPL_nodup hwf, ?_, ?_, ?_⟩
  · intro x hx
    exact mem_visitPL.1 hx
  · intro x hx q hxq hd
    obtain ⟨q2, hq2, hf⟩ := mem_visitPL.1 hx
    have heq : p ++ q2 = p ++ q := by rw [← hq2, ← hxq]
    cases List.append_cancel_left heq
    exact filePath_not_dirPath hf hwf hd
  · rw [← visitPL_length p es]
    exact drain_exact produce p (visitPL p es) hp

theorem c1_single_worker_drain_witness :
    noFailB [FsNode.file "f1", FsNode.dir "sub" [FsNode.file "f2"]] = true ∧
    wfB [FsNode.file "f1", FsNode.dir "sub" [FsNode.file "f2"]] = true ∧
    ((visit ["r"] (FsNode.dir "r" [FsNode.file "f1", FsNode.dir "sub" [FsNode.file "f2"]])
        { sent := [], alive := none }).1.sent.length
      = numFilesL [FsNode.file "f1", FsNode.dir "sub" [FsNode.file "f2"]] ∧
     (visit ["r"] (FsNode.dir "r" [FsNode.file "f1", FsNode.dir "sub" [FsNode.file "f2"]])
        { sent := [], alive := none }).1.sent.Nodup ∧
     (∀ x ∈ (visit ["r"] (FsNode.dir "r" [FsNode.file "f1", FsNode.dir "sub" [FsNode.file "f2"]])
        { sent := [], alive := none }).1.sent,
       ∃ q, x = ["r"] ++ q ∧ IsFilePath [FsNode.file "f1", FsNode.dir "sub" [FsNode.file "f2"]] q) ∧
     (∀ x ∈ (visit ["r"] (FsNode.dir "r" [FsNode.file "f1", FsNode.dir "sub" [FsNode.file "f2"]])
        { sent := [], alive := none }).1.sent,
       ∀ q, x = ["r"] ++ q →
         ¬ IsDirPath [FsNode.file "f1", FsNode.dir "sub" [FsNode.file "f2"]] q) ∧
     (runNexts (fun _ => [["r", "f1"], ["r", "sub", "f2"]])
        (numFilesL [FsNode.file "f1", FsNode.dir "sub" [FsNode.file "f2"]] + 1)
        { root := ["r"], rx := none, is_multithreaded := false }).1
      = (visit ["r"] (FsNode.dir "r" [FsNode.file "f1", FsNode.dir "sub" [FsNode.file "f2"]])
          { sent := [], alive := none }).1.sent.map some ++ [none]) :=
  ⟨by simp [noFailB],
   by simp [wfB, wfChildren, namesNodupB, nodeName],
   c1_single_worker_drain ["r"] "r" _ _
     (by simp [noFailB])
     (by simp [wfB, wfChildren, namesNodupB, nodeName])
     (by simp [visit, visitSubs, sendFiles, Chan.send])⟩

/-- C2: in single-worker mode the delivered sequence has no duplicates, and
for every directory `D` of the tree (at relative path `D` with listing `esD`),
a file directly contained in `D` is sent strictly before any file contained in
any strict descendant of `D`. -/
theorem c2_parent_before_descendant (p : AbsPath) (dn : String) (es : List FsNode)
    (D : List String) (esD : List FsNode) (a c0 : String) (esC : List FsNode)
    (q : List String)
    (hnf : noFailB es = true) (hwf : wfB es = true)
    (hD : DirAt es D esD) (ha : FsNode.file a ∈ esD)
    (hc : FsNode.dir c0 esC ∈ esD) (hq : IsFilePath esC q) :
    (visit p (FsNode.dir dn es) { sent := [], alive := none }).1.sent.Nodup ∧
    Before (p ++ (D ++ [a])) (p ++ (D ++ c0 :: q))
      (visit p (FsNode.dir dn es) { sent := [], alive := none }).1.sent := by
  rw [visit_noFail p dn es [] hnf]
  simp only [List.nil_append]
  exact ⟨visitPL_nodup hwf, before_pure hD ha hc hq p⟩

theorem c2_parent_before_descendant_witness :
    noFailB [FsNode.file "A", FsNode.dir "d" [FsNode.file "B"]] = true ∧
    wfB [FsNode.file "A", FsNode.dir "d" [FsNode.file "B"]] = true ∧
    ((visit ["r"] (FsNode.dir "r" [FsNode.file "A", FsNode.dir "d" [FsNode.file "B"]])
        { sent := [], alive := none }).1.sent.Nodup ∧
     Before (["r"] ++ ([] ++ ["A"])) (["r"] ++ ([] ++ "d" :: ["B"]))
       (visit ["r"] (FsNode.dir "r" [FsNode.file "A", FsNode.dir "d" [FsNode.file "B"]])
          { sent := [], alive := none }).1.sent) :=
  ⟨by simp [noFailB],
   by simp [wfB, wfChildren, namesNodupB, nodeName],
   c2_parent_before_descendant ["r"] "r" _ [] _ "A" "d" [FsNode.file "B"] ["B"]
     (by simp [noFailB])
     (by simp [wfB, wfChildren, namesNodupB, nodeName])
     (DirAt.refl _)
     (by simp)
     (by simp)
     (IsFilePath.here (by simp))⟩

/-- C3: on a failure-free, well-formed tree, the bag of paths emitted
collectively by the fan-out producer (root task plus all transitively spawned
tasks) is exactly the bag emitted by the single-worker producer: the same set
of paths, with no duplicates and no omissions; only the order may differ. -/
theorem c3_fanout_same_set (p : AbsPath) (dn : String) (es : List FsNode)
    (hnf : noFailB es = true) (hwf : wfB es = true) :
    ((visit p (FsNode.dir dn es) { sent := [], alive := none }).1.sent
        : Multiset AbsPath) = visitMTL p es ∧
    (visit p (FsNode.dir dn es) { sent := [], alive := none }).1.sent.Nodup := by
  rw [visit_noFail p dn es [] hnf]
  simp only [List.nil_append]
  exact ⟨visitPL_multiset es p, visitPL_nodup hwf⟩

theorem c3_fanout_same_set_witness :
    noFailB [FsNode.file "A", FsNode.dir "d" [FsNode.file "B"]] = true ∧
    wfB [FsNode.file "A", FsNode.dir "d" [FsNode.file "B"]] = true ∧
    (((visit ["r"] (FsNode.dir "r" [FsNode.file "A", FsNode.dir "d" [FsNode.file "B"]])
        { sent := [], alive := none }).1.sent : Multiset AbsPath)
      = visitMTL ["r"] [FsNode.file "A", FsNode.dir "d" [FsNode.file "B"]] ∧
     (visit ["r"] (FsNode.dir "r" [FsNode.file "A", FsNode.dir "d" [FsNode.file "B"]])
        { sent := [], alive := none }).1.sent.Nodup) :=
  ⟨by simp [noFailB],
   by simp [wfB, wfChildren, namesNodupB, nodeName],
   c3_fanout_same_set ["r"] "r" _
     (by simp [noFailB])
     (by simp [wfB, wfChildren, namesNodupB, nodeName])⟩

/-- C4 (counterexample): the claim that a fan-out task finishes sending all of
its files before spawning its first child task is false on the code: with a
subdirectory listed before a file, the task spawns the child first and sends
the file afterwards, because `visit_multithreaded` handles each entry as it is
encountered in one single loop. -/
theorem c4_counterexample :
    sendsBeforeSpawnsB
      (taskEvents ["r"] [FsNode.dir "d" [], FsNode.file "a"]) = false := by
  rfl

/-- C4 (amended): a fan-out producer task walks its listing once, in listing
order, sending each file and spawning one child task per subdirectory as each
entry is encountered, so sends and spawns interleave exactly in listing order,
in both directions: the send of a file listed at position `i` precedes the
spawn for a subdirectory listed at position `j` whenever `i < j`, and the
spawn for a subdirectory listed at position `i` precedes the send of a file
listed at position `j` whenever `i < j`. -/
theorem c4_sends_and_spawns_in_listing_order (p : AbsPath) (es : List FsNode)
    (i j : Nat) (a b : String) (l0 : List FsNode)
    (hij : i < j) (hj : j < es.length) :
    (es.get ⟨i, by omega⟩ = FsNode.file a → es.get ⟨j, hj⟩ = FsNode.dir b l0 →
      ∃ (hi3 : i < (taskEvents p es).length) (hj3 : j < (taskEvents p es).length),
        (taskEvents p es).get ⟨i, hi3⟩ = MTEvent.send (p ++ [a]) ∧
        (taskEvents p es).get ⟨j, hj3⟩ = MTEvent.spawn (p ++ [b])) ∧
    (es.get ⟨i, by omega⟩ = FsNode.dir b l0 → es.get ⟨j, hj⟩ = FsNode.file a →
      ∃ (hi3 : i < (taskEvents p es).length) (hj3 : j < (taskEvents p es).length),
        (taskEvents p es).get ⟨i, hi3⟩ = MTEvent.spawn (p ++ [b]) ∧
        (taskEvents p es).get ⟨j, hj3⟩ = MTEvent.send (p ++ [a])) := by
  have hlen : (taskEvents p es).length = es.length := by
    rw [taskEvents_eq_map]; simp
  constructor
  · intro hi2 hj2
    refine ⟨by omega, by omega, ?_, ?_⟩
    · rw [taskEvents_get p es i (by omega) (by omega), hi2]
      rfl
    · rw [taskEvents_get p es j (by omega) (by omega), hj2]
      rfl
  · intro hi2 hj2
    refine ⟨by omega, by omega, ?_, ?_⟩
    · rw [taskEvents_get p es i (by omega) (by omega), hi2]
      rfl
    · rw [taskEvents_get p es j (by omega) (by omega), hj2]
      rfl

theorem c4_sends_and_spawns_in_listing_order_witness :
    (0 : Nat) < 1 ∧
    (1 : Nat) < ([FsNode.file "a", FsNode.dir "d" []] : List FsNode).length ∧
    (1 : Nat) < ([FsNode.dir "d" [], FsNode.file "a"] : List FsNode).length ∧
    (∃ (h1 : 0 < (taskEvents ["r"] [FsNode.file "a", FsNode.dir "d" []]).length)
       (h2 : 1 < (taskEvents ["r"] [FsNode.file "a", FsNode.dir "d" []]).length),
      (taskEvents ["r"] [FsNode.file "a", FsNode.dir "d" []]).get ⟨0, h1⟩
        = MTEvent.send (["r"] ++ ["a"]) ∧
      (taskEvents ["r"] [FsNode.file "a", FsNode.dir "d" []]).get ⟨1, h2⟩
        = MTEvent.spawn (["r"] ++ ["d"])) ∧
    (∃ (h1 : 0 < (taskEvents ["r"] [FsNode.dir "d" [], FsNode.file "a"]).length)
       (h2 : 1 < (taskEvents ["r"] [FsNode.dir "d" [], FsNode.file "a"]).length),
      (taskEvents ["r"] [FsNode.dir "d" [], FsNode.file "a"]).get ⟨0, h1⟩
        = MTEvent.spawn (["r"] ++ ["d"]) ∧
      (taskEvents ["r"] [FsNode.dir "d" [], FsNode.file "a"]).get ⟨1, h2⟩
        = MTEvent.send (["r"] ++ ["a"])) :=
  ⟨by omega, by simp, by simp,
   (c4_sends_and_spawns_in_listing_order ["r"] [FsNode.file "a", FsNode.dir "d" []]
      0 1 "a" "d" [] (by omega) (by simp)).1 rfl rfl,
   (c4_sends_and_spawns_in_listing_order ["r"] [FsNode.dir "d" [], FsNode.file "a"]
      0 1 "a" "d" [] (by omega) (by simp)).2 rfl rfl⟩

/-- C5: when the single-worker producer aborts with an error (a failed listing
or a failed send), the consumer is delivered exactly the paths accepted before
the failure followed by the ordinary end-of-sequence signal: no error value
ever reaches the consumer, and the delivered sequence coincides with the
complete, error-free drain of some failure-free tree, so the truncation is
indistinguishable from a fully scanned tree. -/
theorem c5_silent_truncation (p : AbsPath) (d : FsNode) (alive : Option Nat)
    (er : Error) (produce : Bool → List AbsPath)
    (h : (visit p d { sent := [], alive := alive }).2 = some er)
    (hp : produce false = (visit p d { sent := [], alive := alive }).1.sent) :
    (runNexts produce
        ((visit p d { sent := [], alive := alive }).1.sent.length + 1)
        { root := p, rx := none, is_multithreaded := false }).1
      = (visit p d { sent := [], alive := alive }).1.sent.map some ++ [none] ∧
    ∃ es1, noFailB es1 = true ∧
      ∀ dn, visit p (FsNode.dir dn es1) { sent := [], alive := none }
        = ({ sent := (visit p d { sent := [], alive := alive }).1.sent,
             alive := none }, none) := by
  constructor
  · exact drain_exact produce p _ hp
  · rcases hv : visit p d { sent := [], alive := alive } with ⟨c1, opt⟩
    rw [hv] at h
    simp only at h
    subst h
    obtain ⟨es1, hes1, hsent⟩ := visit_err hv
    refine ⟨es1, hes1, fun dn => ?_⟩
    rw [visit_noFail p dn es1 [] hes1]
    simp [hsent]

theorem c5_silent_truncation_witness :
    (visit ["r"] (FsNode.dir "r" [FsNode.file "a", FsNode.dirFail "d" { code := 5 }])
        { sent := [], alive := none }).2 = some (Error.fromIo { code := 5 }) ∧
    ((fun _ => [["r", "a"]]) false
      = (visit ["r"] (FsNode.dir "r" [FsNode.file "a", FsNode.dirFail "d" { code := 5 }])
          { sent := [], alive := none }).1.sent) ∧
    ((runNexts (fun _ => [["r", "a"]])
        ((visit ["r"] (FsNode.dir "r" [FsNode.file "a", FsNode.dirFail "d" { code := 5 }])
            { sent := [], alive := none }).1.sent.length + 1)
        { root := ["r"], rx := none, is_multithreaded := false }).1
      = (visit ["r"] (FsNode.dir "r" [FsNode.file "a", FsNode.dirFail "d" { code := 5 }])
          { sent := [], alive := none }).1.sent.map some ++ [none] ∧
     ∃ es1, noFailB es1 = true ∧
       ∀ dn, visit ["r"] (FsNode.dir dn es1) { sent := [], alive := none }
         = ({ sent := (visit ["r"]
                (FsNode.dir "r" [FsNode.file "a", FsNode.dirFail "d" { code := 5 }])
                { sent := [], alive := none }).1.sent, alive := none }, none)) :=
  ⟨by simp [visit, visitSubs, sendFiles, Chan.send],
   by simp [visit, visitSubs, sendFiles, Chan.send],
   c5_silent_truncation ["r"] _ none (Error.fromIo { code := 5 }) _
     (by simp [visit, visitSubs, sendFiles, Chan.send])
     (by simp [visit, visitSubs, sendFiles, Chan.send])⟩

/-- C6: once `next()` has returned the end-of-sequence signal, every later
call to `next()` on the resulting walker returns the end-of-sequence signal as
well: the sequence never resumes after signaling end. -/
theorem c6_end_is_permanent (produce : Bool → List AbsPath) (rd : ReadDir)
    (h : (ReadDir.next produce rd).1 = none) (n : Nat) :
    (runNexts produce n (ReadDir.next produce rd).2.1).1
      = List.replicate n none := by
  have hrx := next_none_rx h
  rw [runNexts_started n [] _ produce hrx]
  simp [List.take_replicate]

theorem c6_end_is_permanent_witness :
    (ReadDir.next (fun _ => [])
        { root := ["r"], rx := some [], is_multithreaded := false }).1 = none ∧
    (runNexts (fun _ => []) 3
        (ReadDir.next (fun _ => [])
          { root := ["r"], rx := some [], is_multithreaded := false }).2.1).1
      = List.replicate 3 none :=
  ⟨rfl, c6_end_is_permanent (fun _ => [])
    { root := ["r"], rx := some [], is_multithreaded := false } rfl 3⟩

/-- C7: at most one production session ever exists per walker: starting from a
walker with no session, any number `n` of `next()` calls starts a session
exactly on the first call (`min n 1` session starts in total), and no later
call starts another. -/
theorem c7_single_session (produce : Bool → List AbsPath) (rd : ReadDir)
    (h : rd.rx = none) (n : Nat) :
    ((runNexts produce n rd).2.1).count true = min n 1 := by
  cases n with
  | zero => simp [runNexts]
  | succ m =>
    rw [(runNexts_fresh h m).2]
    simp [List.count_cons, List.count_replicate]

theorem c7_single_session_witness :
    ({ root := ["r"], rx := none, is_multithreaded := false } : ReadDir).rx = none ∧
    ((runNexts (fun _ => [["r", "a"]]) 3
        { root := ["r"], rx := none, is_multithreaded := false }).2.1).count true
      = min 3 1 :=
  ⟨rfl, c7_single_session (fun _ => [["r", "a"]]) _ rfl 3⟩

/-- C8: construction resolves the path first and starts no background work:
if resolution fails the constructor returns exactly the `File`-kind error
wrapping that I/O failure and produces no walker; if it succeeds it returns a
walker whose root is the resolved path, with no receiver (hence no session and
no background work) and single-worker mode. -/
theorem c8_try_new (canon : String → Except IoError AbsPath) (dir : String) :
    (∀ e, canon dir = Except.error e →
      try_new canon dir = Except.error (Error.fromIo e)) ∧
    (∀ r, canon dir = Except.ok r →
      try_new canon dir
        = Except.ok { root := r, rx := none, is_multithreaded := false }) := by
  constructor
  · intro e he; simp [try_new, he]
  · intro r hr; simp [try_new, hr]

theorem c8_try_new_witness :
    ((fun s => if s = "good" then Except.ok ["R"]
               else Except.error { code := 2 } : String → Except IoError AbsPath) "bad"
      = Except.error { code := 2 }) ∧
    ((fun s => if s = "good" then Except.ok ["R"]
               else Except.error { code := 2 } : String → Except IoError AbsPath) "good"
      = Except.ok ["R"]) ∧
    try_new (fun s => if s = "good" then Except.ok ["R"]
               else Except.error { code := 2 }) "bad"
      = Except.error (Error.fromIo { code := 2 }) ∧
    try_new (fun s => if s = "good" then Except.ok ["R"]
               else Except.error { code := 2 }) "good"
      = Except.ok { root := ["R"], rx := none, is_multithreaded := false } :=
  ⟨rfl, rfl,
   (c8_try_new _ "bad").1 { code := 2 } rfl,
   (c8_try_new _ "good").2 ["R"] rfl⟩

/-- C9: folding an underlying failure into the unified `Error` preserves both
the discriminant and the original cause: an I/O error maps to a `File`-kind
error whose cause is that I/O error, and a failed send maps to a
`Channel`-kind error whose cause is that send error. -/
theorem c9_error_wrapping (e : IoError) (se : SendError) :
    ((Error.fromIo e).kind = ErrorKind.file ∧
      (Error.fromIo e).cause = ErrorCause.io e) ∧
    ((Error.fromSend se).kind = ErrorKind.channel ∧
      (Error.fromSend se).cause = ErrorCause.send se) := by
  simp [Error.fromIo, Error.fromSend]

/-- C10: once production has started (the receiver is present), mutating the
public `is_multithreaded` field changes nothing the walker ever returns: the
strategy is read exactly once, at session start, and every later `next()` only
reads the stored receiver, so a post-start mode change is silently ignored. -/
theorem c10_mode_change_ignored (produce produce2 : Bool → List AbsPath)
    (rd : ReadDir) (l : List AbsPath) (b : Bool) (n : Nat)
    (h : rd.rx = some l) :
    (runNexts produce n { rd with is_multithreaded := b }).1
      = (runNexts produce2 n rd).1 := by
  rw [runNexts_started n l { rd with is_multithreaded := b } produce (by simpa using h),
    runNexts_started n l rd produce2 h]

theorem c10_mode_change_ignored_witness :
    ({ root := ["r"], rx := some [["r", "a"]], is_multithreaded := false }
      : ReadDir).rx = some [["r", "a"]] ∧
    (runNexts (fun _ => [["x"]]) 3
        { ({ root := ["r"], rx := some [["r", "a"]], is_multithreaded := false }
            : ReadDir) with is_multithreaded := true }).1
      = (runNexts (fun _ => []) 3
          ({ root := ["r"], rx := some [["r", "a"]], is_multithreaded := false }
            : ReadDir)).1 :=
  ⟨rfl,
   c10_mode_change_ignored (fun _ => [["x"]]) (fun _ => []) _ [["r", "a"]] true 3 rfl⟩

end FsHelper
